import Mathlib

/-!
Verification of the Game of Life evolution engine (`src/utils.rs`,
`src/bin/main.rs`): grid partitioning, neighbor counting with bounded
(non-wrapping) edges, per-region transition scanning, and the partitioned
per-generation pipeline.

The board is a list of rows of `Nat` cell values (the Rust code uses a 2-D
`u8` array).  Indexing is fallible: `board_get` returns `none` exactly when
the Rust code would panic (negative coordinate from a `usize` underflow, or
an index past the end of the array), so functions that index the board
return `Option` results.  8-bit accumulation in `gather_board_values` is
modelled by reducing mod 256 at every addition.
-/

namespace GameOfLife

/-- A board is a list of rows; each row is a list of cell values. -/
abbrev Board := List (List Nat)

/-- Fallible board indexing with integer coordinates.  A negative
coordinate (the value a Rust `usize` subtraction would underflow on) or an
out-of-range index yields `none`, mirroring an ndarray panic. -/
def board_get (brd : Board) (r c : Int) : Option Nat :=
  if r < 0 ∨ c < 0 then none
  else match brd[r.toNat]? with
    | none => none
    | some row => row[c.toNat]?

/-- The value of a cell, with every out-of-bounds position reading as 0.
Used by the spec-level neighbor sum, where missing neighbors contribute
nothing. -/
def cellI (brd : Board) (r c : Int) : Nat :=
  (board_get brd r c).getD 0

/-- Loop of `gather_board_values`: left-to-right accumulation of the board
values at the given positions, wrapping mod 256 at each addition (`u8`). -/
def gather_go (brd : Board) : List (Int × Int) → Nat → Option Nat
  | [], ret => some ret
  | (r0, c0) :: rest, ret =>
    match board_get brd r0 c0 with
    | none => none
    | some v => gather_go brd rest ((ret + v) % 256)

/-- `gather_board_values` from `utils.rs`: sum the board values at a list
of positions into a `u8` accumulator starting from 0. -/
def gather_board_values (brd : Board) (pos_arr : List (Int × Int)) : Option Nat :=
  gather_go brd pos_arr 0

/-- `count_neighbors` from `utils.rs`: case dispatch on the four corners,
four edges and the interior, each case listing its neighbor coordinates
exactly as the source does.  Coordinate arithmetic is over `Int` so that a
`usize` underflow in the source shows up as a negative (hence failing)
coordinate. -/
def count_neighbors (brd : Board) (rows cols r c : Nat) : Option Nat :=
  if r = 0 ∧ c = 0 then gather_board_values brd [
    (0, 1),
    (1, 0),
    (1, 1)]
  else if r = 0 ∧ c = cols - 1 then gather_board_values brd [
    (0, (cols : Int) - 2),
    (1, (cols : Int) - 2),
    (1, (cols : Int) - 1)]
  else if r = rows - 1 ∧ c = cols - 1 then gather_board_values brd [
    ((rows : Int) - 2, (cols : Int) - 1),
    ((rows : Int) - 2, (cols : Int) - 2),
    ((rows : Int) - 1, (cols : Int) - 2)]
  else if r = rows - 1 ∧ c = 0 then gather_board_values brd [
    ((rows : Int) - 2, 0),
    ((rows : Int) - 2, 1),
    ((rows : Int) - 1, 1)]
  else if r = 0 then gather_board_values brd [
    (0, (c : Int) - 1),
    (1, (c : Int) - 1),
    (1, (c : Int)),
    (1, (c : Int) + 1),
    (0, (c : Int) + 1)]
  else if c = cols - 1 then gather_board_values brd [
    ((r : Int) - 1, (c : Int)),
    ((r : Int) - 1, (c : Int) - 1),
    ((r : Int), (c : Int) - 1),
    ((r : Int) + 1, (c : Int) - 1),
    ((r : Int) + 1, (c : Int))]
  else if r = rows - 1 then gather_board_values brd [
    ((r : Int), (c : Int) - 1),
    ((r : Int) - 1, (c : Int) - 1),
    ((r : Int) - 1, (c : Int)),
    ((r : Int) - 1, (c : Int) + 1),
    ((r : Int), (c : Int) + 1)]
  else if c = 0 then gather_board_values brd [
    ((r : Int) - 1, 0),
    ((r : Int) - 1, 1),
    ((r : Int), 1),
    ((r : Int) + 1, 1),
    ((r : Int) + 1, 0)]
  else gather_board_values brd [
    ((r : Int) - 1, (c : Int) - 1),
    ((r : Int) - 1, (c : Int)),
    ((r : Int) - 1, (c : Int) + 1),
    ((r : Int), (c : Int) + 1),
    ((r : Int) + 1, (c : Int) + 1),
    ((r : Int) + 1, (c : Int)),
    ((r : Int) + 1, (c : Int) - 1),
    ((r : Int), (c : Int) - 1)]

/-- The ascending list of `len` indices starting at `s` (a Rust
`s..s+len` range). -/
def rowIdxs (s : Nat) : Nat → List Nat
  | 0 => []
  | n + 1 => s :: rowIdxs (s + 1) n

/-- Row-major cell enumeration of a rectangle: all `(r, c)` with `r` drawn
from `rs` and `c` from `sc..sc+len`. -/
def cellsOfRows (rs : List Nat) (sc len : Nat) : List (Nat × Nat) :=
  match rs with
  | [] => []
  | r :: rest => (rowIdxs sc len).map (fun c => (r, c)) ++ cellsOfRows rest sc len

/-- The cells of the half-open rectangle rows `[sr, tr)` × cols
`[sc, tc)` in row-major order, as the `iproduct!` loop of
`capture_moves` visits them. -/
def region_cells (sr tr sc tc : Nat) : List (Nat × Nat) :=
  cellsOfRows (rowIdxs sr (tr - sr)) sc (tc - sc)

/-- Loop body of `capture_moves`: visit each cell, compute its neighbor
count, and push a move according to the B3/S23 rule exactly as the source
writes it (note the `count == 3` branch does not test that the cell is
dead). -/
def capture_go (brd : Board) (rows cols : Nat) :
    List (Nat × Nat) → List (Nat × Nat × Nat) → Option (List (Nat × Nat × Nat))
  | [], moves => some moves
  | (r, c) :: rest, moves =>
    match count_neighbors brd rows cols r c, board_get brd (r : Int) (c : Int) with
    | some count, some v =>
      if v = 1 ∧ (count < 2 ∨ count > 3) then
        capture_go brd rows cols rest (moves ++ [(r, c, 0)])
      else if count = 3 then
        capture_go brd rows cols rest (moves ++ [(r, c, 1)])
      else
        capture_go brd rows cols rest moves
    | _, _ => none

/-- `capture_moves` from `utils.rs`: scan the rectangle rows
`[start_row, stop_row)` × cols `[start_col, stop_col)` and return the list
of `(row, col, newValue)` moves. -/
def capture_moves (brd : Board) (rows cols start_row stop_row start_col stop_col : Nat) :
    Option (List (Nat × Nat × Nat)) :=
  capture_go brd rows cols (region_cells start_row stop_row start_col stop_col) []

/-- Loop of `get_groups`: `k` iterations remain, each pushes the base
size and, while remainder is left, bumps the just-pushed entry by one. -/
def get_groups_go (base : Nat) : Nat → Nat → List Nat → List Nat
  | 0, _, ret => ret
  | k + 1, rem, ret =>
    let ret' := ret ++ [base]
    if rem > 0 then get_groups_go base k (rem - 1) (ret'.set (ret'.length - 1) (base + 1))
    else get_groups_go base k rem ret'

/-- `get_groups` from `utils.rs`: split `num` into `num_groups` sizes as
evenly as possible, earlier groups receiving the remainder. -/
def get_groups (num num_groups : Nat) : List Nat :=
  get_groups_go (num / num_groups) num_groups (num - num_groups * (num / num_groups)) []

/-- Inner loop of `get_subgrids`: one band of rectangles spanning rows
`[rfi, rfi + rlen)`, with columns laid out consecutively from `cfi`
according to the group sizes `cgs`. -/
def extents_cols (rfi rlen : Nat) : List Nat → Nat → List (Nat × Nat × Nat × Nat)
  | [], _ => []
  | clen :: rest, cfi =>
    (rfi, rfi + rlen, cfi, cfi + clen) :: extents_cols rfi rlen rest (cfi + clen)

/-- Outer loop of `get_subgrids`: bands of rectangles laid out
consecutively from row offset `rfi` according to the group sizes `rgs`. -/
def extents_rows (rgs cgs : List Nat) (rfi : Nat) : List (Nat × Nat × Nat × Nat) :=
  match rgs with
  | [] => []
  | rlen :: rest => extents_cols rfi rlen cgs 0 ++ extents_rows rest cgs (rfi + rlen)

/-- `get_subgrids` from `utils.rs`: split the grid into the 3 × 3 grid of
rectangles given by `get_groups` on each axis (the fixed
`NUM_ROW_GROUPS = NUM_COL_GROUPS = 3`). -/
def get_subgrids (rows cols : Nat) : List (Nat × Nat × Nat × Nat) :=
  extents_rows (get_groups rows 3) (get_groups cols 3) 0

/-- Write value `v` at cell `(r, c)`; writes outside the board are
dropped, matching `List.set`. -/
def set_cell (brd : Board) (r c v : Nat) : Board :=
  brd.set r ((brd.getD r []).set c v)

/-- Apply a list of moves to a board in order, as the receiving loop in
`main` writes each `(r, c, v)` received from the channel. -/
def apply_moves (brd : Board) (moves : List (Nat × Nat × Nat)) : Board :=
  moves.foldl (fun b m => set_cell b m.1 m.2.1 m.2.2) brd

/-- One generation of the partitioned pipeline of `main`: capture the
moves of every region against the generation-`t` board, concatenated in
region order, then apply them all. -/
def capture_all (brd : Board) (rows cols : Nat) :
    List (Nat × Nat × Nat × Nat) → Option (List (Nat × Nat × Nat))
  | [] => some []
  | (sr, tr, sc, tc) :: rest =>
    match capture_moves brd rows cols sr tr sc tc with
    | none => none
    | some ms =>
      match capture_all brd rows cols rest with
      | none => none
      | some ms2 => some (ms ++ ms2)

/-- One step of the partitioned pipeline: all regions scanned against the
same snapshot, then every emitted change applied. -/
def pipeline_step (brd : Board) (rows cols : Nat)
    (regions : List (Nat × Nat × Nat × Nat)) : Option Board :=
  match capture_all brd rows cols regions with
  | none => none
  | some ms => some (apply_moves brd ms)

/-- `N` generations of the partitioned pipeline, generation `t` using the
partition `P t`. -/
def pipeline_iter (P : Nat → List (Nat × Nat × Nat × Nat)) (rows cols : Nat) :
    Nat → Board → Option Board
  | 0, brd => some brd
  | n + 1, brd =>
    match pipeline_step brd rows cols (P n) with
    | none => none
    | some brd2 => pipeline_iter P rows cols n brd2

/-- Spec-level neighbor sum, from the spec's words: the sum of the
up-to-8 neighboring cell values, where neighbors outside the grid simply
contribute nothing (no wraparound, no reflection). -/
def spec_neighbor_sum (brd : Board) (r c : Int) : Nat :=
  cellI brd (r - 1) (c - 1) + cellI brd (r - 1) c + cellI brd (r - 1) (c + 1) +
  cellI brd r (c - 1) + cellI brd r (c + 1) +
  cellI brd (r + 1) (c - 1) + cellI brd (r + 1) c + cellI brd (r + 1) (c + 1)

/-- Spec-level sequential whole-grid B3/S23 step, from the spec's words:
an alive cell survives with 2 or 3 live neighbors, a dead cell is born
with exactly 3, every other cell is dead next generation. -/
def spec_step (brd : Board) (rows cols : Nat) : Board :=
  (List.range rows).map (fun (r : Nat) => (List.range cols).map (fun (c : Nat) =>
    if cellI brd (r : Int) (c : Int) = 1 then
      if spec_neighbor_sum brd (r : Int) (c : Int) = 2 ∨
         spec_neighbor_sum brd (r : Int) (c : Int) = 3 then 1 else 0
    else
      if spec_neighbor_sum brd (r : Int) (c : Int) = 3 then 1 else 0))

/-- `N` generations of the spec-level sequential step. -/
def spec_iter (rows cols : Nat) : Nat → Board → Board
  | 0, brd => brd
  | n + 1, brd => spec_iter rows cols n (spec_step brd rows cols)

/-- Well-formed board: exactly `rows` rows, each of length `cols`. -/
def WF (brd : Board) (rows cols : Nat) : Prop :=
  brd.length = rows ∧ ∀ row ∈ brd, row.length = cols

/-- Binary board: every cell value is 0 or 1. -/
def Binary (brd : Board) : Prop :=
  ∀ row ∈ brd, ∀ v ∈ row, v ≤ 1

/-- A rectangle contains the cell `(r, c)` (half-open on both axes). -/
def containsB (R : Nat × Nat × Nat × Nat) (r c : Nat) : Bool :=
  decide (R.1 ≤ r) && decide (r < R.2.1) && decide (R.2.2.1 ≤ c) && decide (c < R.2.2.2)

/-- A valid partition for the pipeline: every region lies inside the
grid, and every grid cell lies in exactly one region. -/
def ExactPartition (regions : List (Nat × Nat × Nat × Nat)) (rows cols : Nat) : Prop :=
  (∀ R ∈ regions, R.2.1 ≤ rows ∧ R.2.2.2 ≤ cols) ∧
  (∀ r, r < rows → ∀ c, c < cols → regions.countP (fun R => containsB R r c) = 1)

instance (brd : Board) (rows cols : Nat) : Decidable (WF brd rows cols) :=
  inferInstanceAs (Decidable (_ ∧ _))

instance (brd : Board) : Decidable (Binary brd) :=
  inferInstanceAs (Decidable (∀ row ∈ brd, ∀ v ∈ row, v ≤ 1))

instance (regions : List (Nat × Nat × Nat × Nat)) (rows cols : Nat) :
    Decidable (ExactPartition regions rows cols) :=
  inferInstanceAs (Decidable (_ ∧ _))

/-- The per-cell decision of the scanner's branch, as written in the
source: an alive cell with count outside 2..3 moves to 0, otherwise any
cell with count exactly 3 moves to 1, otherwise no move. -/
def move_at (v n : Nat) : Option Nat :=
  if v = 1 ∧ (n < 2 ∨ n > 3) then some 0
  else if n = 3 then some 1
  else none

/-! ## Board indexing lemmas -/

/-- An element found by position is a member of the list. -/
theorem mem_of_listGet {A : Type} {xs : List A} {n : Nat} {x : A}
    (h : xs[n]? = some x) : x ∈ xs := by
  obtain ⟨h1, rfl⟩ := List.getElem?_eq_some.mp h
  exact List.getElem_mem h1

/-- On a well-formed board, an in-bounds lookup succeeds and returns the
cell value. -/
theorem board_get_some (brd : Board) (rows cols : Nat) (a b : Int)
    (hwf : WF brd rows cols)
    (hab : 0 ≤ a ∧ a < (rows : Int) ∧ 0 ≤ b ∧ b < (cols : Int)) :
    board_get brd a b = some (cellI brd a b) := by
  obtain ⟨ha0, ha, hb0, hb⟩ := hab
  obtain ⟨hlen, hrow⟩ := hwf
  have h1 : a.toNat < brd.length := by omega
  have h2 : b.toNat < (brd[a.toNat]).length := by
    have := hrow _ (List.getElem_mem h1)
    omega
  have key : board_get brd a b = some ((brd[a.toNat])[b.toNat]) := by
    unfold board_get
    rw [if_neg (by omega)]
    rw [List.getElem?_eq_getElem h1]
    show (brd[a.toNat])[b.toNat]? = some _
    rw [List.getElem?_eq_getElem h2]
  rw [key]
  unfold cellI
  rw [key]
  rfl

/-- On a well-formed board, an out-of-bounds lookup fails. -/
theorem board_get_oob (brd : Board) (rows cols : Nat) (a b : Int)
    (hwf : WF brd rows cols)
    (h : a < 0 ∨ (rows : Int) ≤ a ∨ b < 0 ∨ (cols : Int) ≤ b) :
    board_get brd a b = none := by
  obtain ⟨hlen, hrow⟩ := hwf
  unfold board_get
  by_cases hneg : a < 0 ∨ b < 0
  · rw [if_pos hneg]
  · rw [if_neg hneg]
    by_cases hao : a.toNat < brd.length
    · rw [List.getElem?_eq_getElem hao]
      show (brd[a.toNat])[b.toNat]? = none
      have := hrow _ (List.getElem_mem hao)
      exact List.getElem?_eq_none (by omega)
    · rw [List.getElem?_eq_none (by omega)]

/-- An out-of-bounds position reads as value 0. -/
theorem cellI_zero (brd : Board) (rows cols : Nat) (a b : Int)
    (hwf : WF brd rows cols)
    (h : a < 0 ∨ (rows : Int) ≤ a ∨ b < 0 ∨ (cols : Int) ≤ b) :
    cellI brd a b = 0 := by
  unfold cellI
  rw [board_get_oob brd rows cols a b hwf h]
  rfl

/-- On a binary board every read, in or out of bounds, is at most 1. -/
theorem cellI_le_one (brd : Board) (a b : Int) (hbin : Binary brd) :
    cellI brd a b ≤ 1 := by
  unfold cellI
  cases hg : board_get brd a b with
  | none => simp
  | some v =>
    simp only [Option.getD_some]
    unfold board_get at hg
    by_cases hneg : a < 0 ∨ b < 0
    · rw [if_pos hneg] at hg; cases hg
    · rw [if_neg hneg] at hg
      cases hrow : brd[a.toNat]? with
      | none => rw [hrow] at hg; cases hg
      | some row =>
        rw [hrow] at hg
        have hg2 : row[b.toNat]? = some v := hg
        exact hbin row (mem_of_listGet hrow) v (mem_of_listGet hg2)

/-- The spec-level neighbor sum of a binary board is at most 8. -/
theorem spec_sum_le_eight (brd : Board) (r c : Int) (hbin : Binary brd) :
    spec_neighbor_sum brd r c ≤ 8 := by
  unfold spec_neighbor_sum
  have h1 := cellI_le_one brd (r - 1) (c - 1) hbin
  have h2 := cellI_le_one brd (r - 1) c hbin
  have h3 := cellI_le_one brd (r - 1) (c + 1) hbin
  have h4 := cellI_le_one brd r (c - 1) hbin
  have h5 := cellI_le_one brd r (c + 1) hbin
  have h6 := cellI_le_one brd (r + 1) (c - 1) hbin
  have h7 := cellI_le_one brd (r + 1) c hbin
  have h8 := cellI_le_one brd (r + 1) (c + 1) hbin
  omega

/-- Bridge between the code and the spec: on a well-formed binary board
with at least two rows and columns, `count_neighbors` succeeds at every
in-bounds cell and returns exactly the spec-level neighbor sum. -/
theorem count_neighbors_bridge (brd : Board) (rows cols r c : Nat)
    (hwf : WF brd rows cols) (hbin : Binary brd)
    (h2r : 2 ≤ rows) (h2c : 2 ≤ cols) (hr : r < rows) (hc : c < cols) :
    count_neighbors brd rows cols r c = some (spec_neighbor_sum brd (r : Int) (c : Int)) := by
  have G : ∀ a b : Int, 0 ≤ a ∧ a < (rows : Int) ∧ 0 ≤ b ∧ b < (cols : Int) →
      board_get brd a b = some (cellI brd a b) :=
    fun a b u => board_get_some brd rows cols a b hwf u
  have Z : ∀ a b : Int, (a < 0 ∨ (rows : Int) ≤ a ∨ b < 0 ∨ (cols : Int) ≤ b) →
      cellI brd a b = 0 :=
    fun a b u => cellI_zero brd rows cols a b hwf u
  have B : ∀ a b : Int, cellI brd a b ≤ 1 := fun a b => cellI_le_one brd a b hbin
  by_cases hr0 : r = 0
  · by_cases hc0 : c = 0
    · -- upper left corner
      subst hr0; subst hc0
      have e1 := G 0 1 (by omega)
      have e2 := G 1 0 (by omega)
      have e3 := G 1 1 (by omega)
      have z1 := Z (-1) (-1) (by omega)
      have z2 := Z (-1) 0 (by omega)
      have z3 := Z (-1) 1 (by omega)
      have z4 := Z 0 (-1) (by omega)
      have z5 := Z 1 (-1) (by omega)
      have b1 := B 0 1
      have b2 := B 1 0
      have b3 := B 1 1
      unfold count_neighbors
      rw [if_pos ⟨rfl, rfl⟩]
      simp only [gather_board_values, gather_go, e1, e2, e3, spec_neighbor_sum,
        Nat.cast_zero, Option.some.injEq]
      norm_num
      omega
    · by_cases hc1 : c = cols - 1
      · -- upper right corner
        subst hr0
        have e1 := G 0 ((cols : Int) - 2) (by omega)
        have e2 := G 1 ((cols : Int) - 2) (by omega)
        have e3 := G 1 ((cols : Int) - 1) (by omega)
        have z1 := Z (-1) ((c : Int) - 1) (by omega)
        have z2 := Z (-1) (c : Int) (by omega)
        have z3 := Z (-1) ((c : Int) + 1) (by omega)
        have z4 := Z 0 ((c : Int) + 1) (by omega)
        have z5 := Z 1 ((c : Int) + 1) (by omega)
        have q1 : cellI brd 0 ((cols : Int) - 2) = cellI brd 0 ((c : Int) - 1) := by
          rw [show ((cols : Int) - 2) = (c : Int) - 1 from by omega]
        have q2 : cellI brd 1 ((cols : Int) - 2) = cellI brd 1 ((c : Int) - 1) := by
          rw [show ((cols : Int) - 2) = (c : Int) - 1 from by omega]
        have q3 : cellI brd 1 ((cols : Int) - 1) = cellI brd 1 (c : Int) := by
          rw [show ((cols : Int) - 1) = (c : Int) from by omega]
        have b1 := B 0 ((cols : Int) - 2)
        have b2 := B 1 ((cols : Int) - 2)
        have b3 := B 1 ((cols : Int) - 1)
        unfold count_neighbors
        rw [if_neg (by omega), if_pos ⟨rfl, hc1⟩]
        simp only [gather_board_values, gather_go, e1, e2, e3, spec_neighbor_sum,
          Nat.cast_zero, Option.some.injEq]
        norm_num
        omega
      · -- top row
        subst hr0
        have e1 := G 0 ((c : Int) - 1) (by omega)
        have e2 := G 1 ((c : Int) - 1) (by omega)
        have e3 := G 1 (c : Int) (by omega)
        have e4 := G 1 ((c : Int) + 1) (by omega)
        have e5 := G 0 ((c : Int) + 1) (by omega)
        have z1 := Z (-1) ((c : Int) - 1) (by omega)
        have z2 := Z (-1) (c : Int) (by omega)
        have z3 := Z (-1) ((c : Int) + 1) (by omega)
        have b1 := B 0 ((c : Int) - 1)
        have b2 := B 1 ((c : Int) - 1)
        have b3 := B 1 (c : Int)
        have b4 := B 1 ((c : Int) + 1)
        have b5 := B 0 ((c : Int) + 1)
        unfold count_neighbors
        split_ifs <;> try omega
        simp only [gather_board_values, gather_go, e1, e2, e3, e4, e5, spec_neighbor_sum,
          Nat.cast_zero, Option.some.injEq]
        norm_num
        omega
  · by_cases hr1 : r = rows - 1
    · by_cases hc1 : c = cols - 1
      · -- bottom right corner
        have e1 := G ((rows : Int) - 2) ((cols : Int) - 1) (by omega)
        have e2 := G ((rows : Int) - 2) ((cols : Int) - 2) (by omega)
        have e3 := G ((rows : Int) - 1) ((cols : Int) - 2) (by omega)
        have z1 := Z ((r : Int) - 1) ((c : Int) + 1) (by omega)
        have z2 := Z (r : Int) ((c : Int) + 1) (by omega)
        have z3 := Z ((r : Int) + 1) ((c : Int) - 1) (by omega)
        have z4 := Z ((r : Int) + 1) (c : Int) (by omega)
        have z5 := Z ((r : Int) + 1) ((c : Int) + 1) (by omega)
        have q1 : cellI brd ((rows : Int) - 2) ((cols : Int) - 1) =
            cellI brd ((r : Int) - 1) (c : Int) := by
          rw [show ((rows : Int) - 2) = (r : Int) - 1 from by omega,
            show ((cols : Int) - 1) = (c : Int) from by omega]
        have q2 : cellI brd ((rows : Int) - 2) ((cols : Int) - 2) =
            cellI brd ((r : Int) - 1) ((c : Int) - 1) := by
          rw [show ((rows : Int) - 2) = (r : Int) - 1 from by omega,
            show ((cols : Int) - 2) = (c : Int) - 1 from by omega]
        have q3 : cellI brd ((rows : Int) - 1) ((cols : Int) - 2) =
            cellI brd (r : Int) ((c : Int) - 1) := by
          rw [show ((rows : Int) - 1) = (r : Int) from by omega,
            show ((cols : Int) - 2) = (c : Int) - 1 from by omega]
        have b1 := B ((rows : Int) - 2) ((cols : Int) - 1)
        have b2 := B ((rows : Int) - 2) ((cols : Int) - 2)
        have b3 := B ((rows : Int) - 1) ((cols : Int) - 2)
        unfold count_neighbors
        split_ifs <;> try omega
        simp only [gather_board_values, gather_go, e1, e2, e3, spec_neighbor_sum,
          Option.some.injEq]
        omega
      · by_cases hc0 : c = 0
        · -- bottom left corner
          subst hc0
          have e1 := G ((rows : Int) - 2) 0 (by omega)
          have e2 := G ((rows : Int) - 2) 1 (by omega)
          have e3 := G ((rows : Int) - 1) 1 (by omega)
          have z1 := Z ((r : Int) - 1) (-1) (by omega)
          have z2 := Z (r : Int) (-1) (by omega)
          have z3 := Z ((r : Int) + 1) (-1) (by omega)
          have z4 := Z ((r : Int) + 1) 0 (by omega)
          have z5 := Z ((r : Int) + 1) 1 (by omega)
          have q1 : cellI brd ((rows : Int) - 2) 0 = cellI brd ((r : Int) - 1) 0 := by
            rw [show ((rows : Int) - 2) = (r : Int) - 1 from by omega]
          have q2 : cellI brd ((rows : Int) - 2) 1 = cellI brd ((r : Int) - 1) 1 := by
            rw [show ((rows : Int) - 2) = (r : Int) - 1 from by omega]
          have q3 : cellI brd ((rows : Int) - 1) 1 = cellI brd (r : Int) 1 := by
            rw [show ((rows : Int) - 1) = (r : Int) from by omega]
          have b1 := B ((rows : Int) - 2) 0
          have b2 := B ((rows : Int) - 2) 1
          have b3 := B ((rows : Int) - 1) 1
          unfold count_neighbors
          split_ifs <;> try omega
          simp only [gather_board_values, gather_go, e1, e2, e3, spec_neighbor_sum,
            Nat.cast_zero, Option.some.injEq]
          norm_num
          omega
        · -- bottom row
          have e1 := G (r : Int) ((c : Int) - 1) (by omega)
          have e2 := G ((r : Int) - 1) ((c : Int) - 1) (by omega)
          have e3 := G ((r : Int) - 1) (c : Int) (by omega)
          have e4 := G ((r : Int) - 1) ((c : Int) + 1) (by omega)
          have e5 := G (r : Int) ((c : Int) + 1) (by omega)
          have z1 := Z ((r : Int) + 1) ((c : Int) - 1) (by omega)
          have z2 := Z ((r : Int) + 1) (c : Int) (by omega)
          have z3 := Z ((r : Int) + 1) ((c : Int) + 1) (by omega)
          have b1 := B (r : Int) ((c : Int) - 1)
          have b2 := B ((r : Int) - 1) ((c : Int) - 1)
          have b3 := B ((r : Int) - 1) (c : Int)
          have b4 := B ((r : Int) - 1) ((c : Int) + 1)
          have b5 := B (r : Int) ((c : Int) + 1)
          unfold count_neighbors
          split_ifs <;> try omega
          simp only [gather_board_values, gather_go, e1, e2, e3, e4, e5, spec_neighbor_sum,
            Option.some.injEq]
          omega
    · by_cases hc1 : c = cols - 1
      · -- right column
        have e1 := G ((r : Int) - 1) (c : Int) (by omega)
        have e2 := G ((r : Int) - 1) ((c : Int) - 1) (by omega)
        have e3 := G (r : Int) ((c : Int) - 1) (by omega)
        have e4 := G ((r : Int) + 1) ((c : Int) - 1) (by omega)
        have e5 := G ((r : Int) + 1) (c : Int) (by omega)
        have z1 := Z ((r : Int) - 1) ((c : Int) + 1) (by omega)
        have z2 := Z (r : Int) ((c : Int) + 1) (by omega)
        have z3 := Z ((r : Int) + 1) ((c : Int) + 1) (by omega)
        have b1 := B ((r : Int) - 1) (c : Int)
        have b2 := B ((r : Int) - 1) ((c : Int) - 1)
        have b3 := B (r : Int) ((c : Int) - 1)
        have b4 := B ((r : Int) + 1) ((c : Int) - 1)
        have b5 := B ((r : Int) + 1) (c : Int)
        unfold count_neighbors
        split_ifs <;> try omega
        simp only [gather_board_values, gather_go, e1, e2, e3, e4, e5, spec_neighbor_sum,
          Option.some.injEq]
        omega
      · by_cases hc0 : c = 0
        · -- left column
          subst hc0
          have e1 := G ((r : Int) - 1) 0 (by omega)
          have e2 := G ((r : Int) - 1) 1 (by omega)
          have e3 := G (r : Int) 1 (by omega)
          have e4 := G ((r : Int) + 1) 1 (by omega)
          have e5 := G ((r : Int) + 1) 0 (by omega)
          have z1 := Z ((r : Int) - 1) (-1) (by omega)
          have z2 := Z (r : Int) (-1) (by omega)
          have z3 := Z ((r : Int) + 1) (-1) (by omega)
          have b1 := B ((r : Int) - 1) 0
          have b2 := B ((r : Int) - 1) 1
          have b3 := B (r : Int) 1
          have b4 := B ((r : Int) + 1) 1
          have b5 := B ((r : Int) + 1) 0
          unfold count_neighbors
          split_ifs <;> try omega
          simp only [gather_board_values, gather_go, e1, e2, e3, e4, e5, spec_neighbor_sum,
            Nat.cast_zero, Option.some.injEq]
          norm_num
          omega
        · -- bulk
          have e1 := G ((r : Int) - 1) ((c : Int) - 1) (by omega)
          have e2 := G ((r : Int) - 1) (c : Int) (by omega)
          have e3 := G ((r : Int) - 1) ((c : Int) + 1) (by omega)
          have e4 := G (r : Int) ((c : Int) + 1) (by omega)
          have e5 := G ((r : Int) + 1) ((c : Int) + 1) (by omega)
          have e6 := G ((r : Int) + 1) (c : Int) (by omega)
          have e7 := G ((r : Int) + 1) ((c : Int) - 1) (by omega)
          have e8 := G (r : Int) ((c : Int) - 1) (by omega)
          have b1 := B ((r : Int) - 1) ((c : Int) - 1)
          have b2 := B ((r : Int) - 1) (c : Int)
          have b3 := B ((r : Int) - 1) ((c : Int) + 1)
          have b4 := B (r : Int) ((c : Int) + 1)
          have b5 := B ((r : Int) + 1) ((c : Int) + 1)
          have b6 := B ((r : Int) + 1) (c : Int)
          have b7 := B ((r : Int) + 1) ((c : Int) - 1)
          have b8 := B (r : Int) ((c : Int) - 1)
          unfold count_neighbors
          split_ifs <;> try omega
          simp only [gather_board_values, gather_go, e1, e2, e3, e4, e5, e6, e7, e8,
            spec_neighbor_sum, Option.some.injEq]
          omega

/-! ## Partitioner lemmas -/

/-- Setting the position just past a list, in the one-longer list ending
in `x`, replaces that `x`. -/
theorem set_append_last {A : Type} (xs : List A) (x y : A) :
    (xs ++ [x]).set xs.length y = xs ++ [y] := by
  simp [List.set_append]

/-- Closed form of the `get_groups` loop: the first `rem` pushed entries
are `base + 1` and the remaining `k - rem` are `base`. -/
theorem get_groups_go_eq (base : Nat) :
    ∀ (k rem : Nat) (ret : List Nat), rem ≤ k →
    get_groups_go base k rem ret =
      ret ++ (List.replicate rem (base + 1) ++ List.replicate (k - rem) base)
  | 0, rem, ret, h => by
    have hz : rem = 0 := by omega
    subst hz
    simp [get_groups_go]
  | k + 1, rem, ret, h => by
    cases rem with
    | zero =>
      simp only [get_groups_go]
      rw [if_neg (by omega)]
      rw [get_groups_go_eq base k 0 (ret ++ [base]) (by omega)]
      simp [List.replicate_succ]
    | succ m =>
      simp only [get_groups_go]
      rw [if_pos (by omega)]
      have hlen : (ret ++ [base]).length - 1 = ret.length := by simp
      rw [hlen, set_append_last]
      have hm : m + 1 - 1 = m := by omega
      rw [hm, get_groups_go_eq base k m (ret ++ [base + 1]) (by omega)]
      have hsub : k + 1 - (m + 1) = k - m := by omega
      rw [hsub]
      simp [List.replicate_succ]

/-- Closed form of `get_groups`: `num % g` groups of size `num / g + 1`
followed by `g - num % g` groups of size `num / g`. -/
theorem get_groups_eq (num g : Nat) (hg : 1 ≤ g) :
    get_groups num g =
      List.replicate (num % g) (num / g + 1) ++ List.replicate (g - num % g) (num / g) := by
  unfold get_groups
  have h1 : num - g * (num / g) = num % g := by
    have := Nat.div_add_mod num g
    omega
  rw [h1, get_groups_go_eq (num / g) g (num % g) []
    (le_of_lt (Nat.mod_lt num (show 0 < g by omega)))]
  simp

/-- `get_groups` always returns exactly `num_groups` sizes. -/
theorem get_groups_length (num g : Nat) (hg : 1 ≤ g) : (get_groups num g).length = g := by
  rw [get_groups_eq num g hg]
  have := Nat.mod_lt num (show 0 < g by omega)
  simp
  omega

/-- The sizes returned by `get_groups` always sum to `num`, even when
`num < num_groups` (zero-size groups pad the list). -/
theorem get_groups_sum (num g : Nat) (hg : 1 ≤ g) : (get_groups num g).sum = num := by
  rw [get_groups_eq num g hg]
  simp [List.sum_replicate, smul_eq_mul]
  have h1 := Nat.div_add_mod num g
  have h2 := Nat.mod_lt num (show 0 < g by omega)
  have h3 : num % g * (num / g) ≤ g * (num / g) :=
    Nat.mul_le_mul_right (num / g) (by omega)
  rw [Nat.mul_succ, Nat.sub_mul]
  omega

/-- Counting rectangles of one band that contain `(r, c)`: one when `r`
is in the band's row span and `c` is inside the columns the band covers,
zero otherwise. -/
theorem countP_extents_cols (rfi rlen : Nat) (cgs : List Nat) :
    ∀ (cfi r c : Nat),
    (extents_cols rfi rlen cgs cfi).countP (fun R => containsB R r c) =
      if rfi ≤ r ∧ r < rfi + rlen ∧ cfi ≤ c ∧ c < cfi + cgs.sum then 1 else 0 := by
  induction cgs with
  | nil =>
    intro cfi r c
    simp only [extents_cols, List.countP_nil, List.sum_nil]
    split_ifs with h
    · omega
    · rfl
  | cons clen rest ih =>
    intro cfi r c
    simp only [extents_cols, List.countP_cons]
    rw [ih (cfi + clen) r c]
    simp only [containsB, List.sum_cons, Bool.and_eq_true, decide_eq_true_eq]
    split_ifs <;> omega

/-- Counting rectangles of the full layout that contain `(r, c)`: one when
`(r, c)` is inside the covered area, zero otherwise. -/
theorem countP_extents_rows (rgs : List Nat) (cgs : List Nat) :
    ∀ (rfi r c : Nat),
    (extents_rows rgs cgs rfi).countP (fun R => containsB R r c) =
      if rfi ≤ r ∧ r < rfi + rgs.sum ∧ c < cgs.sum then 1 else 0 := by
  induction rgs with
  | nil =>
    intro rfi r c
    simp only [extents_rows, List.countP_nil, List.sum_nil]
    split_ifs with h
    · omega
    · rfl
  | cons rlen rest ih =>
    intro rfi r c
    simp only [extents_rows, List.countP_append]
    rw [countP_extents_cols, ih (rfi + rlen) r c]
    simp only [List.sum_cons]
    split_ifs <;> omega

/-- Every rectangle of one band stays inside the covered area. -/
theorem extents_cols_bounds (rfi rlen : Nat) (cgs : List Nat) :
    ∀ (cfi sr tr sc tc : Nat), (sr, tr, sc, tc) ∈ extents_cols rfi rlen cgs cfi →
      tr ≤ rfi + rlen ∧ tc ≤ cfi + cgs.sum := by
  induction cgs with
  | nil => intro cfi sr tr sc tc hR; simp [extents_cols] at hR
  | cons clen rest ih =>
    intro cfi sr tr sc tc hR
    simp only [extents_cols, List.mem_cons, Prod.mk.injEq] at hR
    simp only [List.sum_cons]
    cases hR with
    | inl h => omega
    | inr h =>
      have := ih (cfi + clen) sr tr sc tc h
      omega

/-- Every rectangle of the layout stays inside the covered area. -/
theorem extents_rows_bounds (rgs cgs : List Nat) :
    ∀ (rfi sr tr sc tc : Nat), (sr, tr, sc, tc) ∈ extents_rows rgs cgs rfi →
      tr ≤ rfi + rgs.sum ∧ tc ≤ cgs.sum := by
  induction rgs with
  | nil => intro rfi sr tr sc tc hR; simp [extents_rows] at hR
  | cons rlen rest ih =>
    intro rfi sr tr sc tc hR
    simp only [extents_rows, List.mem_append] at hR
    simp only [List.sum_cons]
    cases hR with
    | inl h =>
      have := extents_cols_bounds rfi rlen cgs 0 sr tr sc tc h
      omega
    | inr h =>
      have := ih (rfi + rlen) sr tr sc tc h
      omega

/-- `get_subgrids` is an exact partition of the grid: every region lies
inside the grid and every cell lies in exactly one region. -/
theorem get_subgrids_exact (rows cols : Nat) :
    ExactPartition (get_subgrids rows cols) rows cols := by
  constructor
  · intro R hR
    obtain ⟨sr, tr, sc, tc⟩ := R
    have := extents_rows_bounds (get_groups rows 3) (get_groups cols 3) 0 sr tr sc tc hR
    rw [get_groups_sum rows 3 (by omega), get_groups_sum cols 3 (by omega)] at this
    show tr ≤ rows ∧ tc ≤ cols
    omega
  · intro r hr c hc
    unfold get_subgrids
    rw [countP_extents_rows, get_groups_sum rows 3 (by omega),
      get_groups_sum cols 3 (by omega), if_pos (by omega)]

/-! ## Region cell enumeration lemmas -/

/-- Membership in an index range. -/
theorem mem_rowIdxs : ∀ (n s x : Nat), x ∈ rowIdxs s n ↔ s ≤ x ∧ x < s + n
  | 0, s, x => by
    simp only [rowIdxs, List.not_mem_nil, false_iff]
    omega
  | n + 1, s, x => by
    simp only [rowIdxs, List.mem_cons, mem_rowIdxs n (s + 1) x]
    omega

/-- Occurrence count in an index range: ranges enumerate each index once. -/
theorem count_rowIdxs : ∀ (n s x : Nat),
    (rowIdxs s n).count x = if s ≤ x ∧ x < s + n then 1 else 0
  | 0, s, x => by
    simp only [rowIdxs, List.count_nil]
    split_ifs <;> omega
  | n + 1, s, x => by
    simp only [rowIdxs, List.count_cons, count_rowIdxs n (s + 1) x, beq_iff_eq]
    split_ifs <;> omega

/-- Occurrence count of a pair in one row of cells. -/
theorem count_pair_row : ∀ (idxs : List Nat) (r0 r c : Nat),
    ((idxs.map (fun c0 => (r0, c0))).count (r, c)) = if r0 = r then idxs.count c else 0
  | [], r0, r, c => by simp
  | a :: rest, r0, r, c => by
    simp only [List.map_cons, List.count_cons, count_pair_row rest r0 r c, beq_iff_eq,
      Prod.mk.injEq]
    split_ifs with u1 u2 u2 <;> simp_all

/-- Occurrence count of a pair in a block of cells factorizes. -/
theorem count_cellsOfRows : ∀ (rs : List Nat) (sc len r c : Nat),
    (cellsOfRows rs sc len).count (r, c) = rs.count r * (rowIdxs sc len).count c
  | [], sc, len, r, c => by simp [cellsOfRows]
  | r0 :: rest, sc, len, r, c => by
    simp only [cellsOfRows, List.count_append, count_pair_row, List.count_cons,
      count_cellsOfRows rest sc len r c, beq_iff_eq]
    split_ifs with u1 <;> ring_nf

/-- Each cell of the grid occurs exactly once in its region's cell list,
and cells outside the region do not occur. -/
theorem count_region_cells (sr tr sc tc r c : Nat) :
    (region_cells sr tr sc tc).count (r, c) =
      if sr ≤ r ∧ r < tr ∧ sc ≤ c ∧ c < tc then 1 else 0 := by
  unfold region_cells
  rw [count_cellsOfRows, count_rowIdxs, count_rowIdxs]
  split_ifs <;> omega

/-- Membership in a region's cell list is exactly containment in the
half-open rectangle. -/
theorem mem_region_cells (sr tr sc tc r c : Nat) :
    (r, c) ∈ region_cells sr tr sc tc ↔ (sr ≤ r ∧ r < tr ∧ sc ≤ c ∧ c < tc) := by
  rw [← List.count_pos_iff, count_region_cells]
  split_ifs with h
  · simp [h]
  · simp [h]

/-! ## Transition scanner characterization -/

/-- The move the scanner emits for one cell, phrased through the spec
neighbor sum (valid on well-formed binary boards by the bridge lemma). -/
def moveOf (brd : Board) (rows cols : Nat) (p : Nat × Nat) : Option (Nat × Nat × Nat) :=
  (move_at ((board_get brd (p.1 : Int) (p.2 : Int)).getD 0)
    ((count_neighbors brd rows cols p.1 p.2).getD 0)).map (fun w => (p.1, p.2, w))

/-- On a well-formed binary board, the scanner loop visits in-bounds
cells without failing and appends exactly the per-cell moves. -/
theorem capture_go_eq (brd : Board) (rows cols : Nat) (hwf : WF brd rows cols)
    (hbin : Binary brd) (h2r : 2 ≤ rows) (h2c : 2 ≤ cols) :
    ∀ (cells : List (Nat × Nat)) (moves : List (Nat × Nat × Nat)),
    (∀ p ∈ cells, p.1 < rows ∧ p.2 < cols) →
    capture_go brd rows cols cells moves =
      some (moves ++ cells.filterMap (moveOf brd rows cols))
  | [], moves, _ => by simp [capture_go]
  | (r, c) :: rest, moves, h => by
    have hb := h (r, c) (by simp)
    have hn := count_neighbors_bridge brd rows cols r c hwf hbin h2r h2c hb.1 hb.2
    have hv := board_get_some brd rows cols (r : Int) (c : Int) hwf (by omega)
    have hrest : ∀ p ∈ rest, p.1 < rows ∧ p.2 < cols := fun p hp => h p (by simp [hp])
    have hmv : moveOf brd rows cols (r, c) =
        (move_at (cellI brd (r : Int) (c : Int))
          (spec_neighbor_sum brd (r : Int) (c : Int))).map (fun w => (r, c, w)) := by
      simp [moveOf, hn, hv]
    simp only [capture_go, hn, hv]
    rw [List.filterMap_cons, hmv]
    by_cases h1 : cellI brd (r : Int) (c : Int) = 1 ∧
        (spec_neighbor_sum brd (r : Int) (c : Int) < 2 ∨
         spec_neighbor_sum brd (r : Int) (c : Int) > 3)
    · rw [if_pos h1, capture_go_eq brd rows cols hwf hbin h2r h2c rest
        (moves ++ [(r, c, 0)]) hrest]
      simp [move_at, h1]
    · rw [if_neg h1]
      by_cases h2 : spec_neighbor_sum brd (r : Int) (c : Int) = 3
      · rw [if_pos h2, capture_go_eq brd rows cols hwf hbin h2r h2c rest
          (moves ++ [(r, c, 1)]) hrest]
        simp [move_at, h1, h2]
      · rw [if_neg h2, capture_go_eq brd rows cols hwf hbin h2r h2c rest moves hrest]
        simp [move_at, h1, h2]

/-- On a well-formed binary board, scanning an in-bounds region returns
exactly the per-cell moves of the region's cells in row-major order. -/
theorem capture_moves_eq (brd : Board) (rows cols sr tr sc tc : Nat)
    (hwf : WF brd rows cols) (hbin : Binary brd) (h2r : 2 ≤ rows) (h2c : 2 ≤ cols)
    (htr : tr ≤ rows) (htc : tc ≤ cols) :
    capture_moves brd rows cols sr tr sc tc =
      some ((region_cells sr tr sc tc).filterMap (moveOf brd rows cols)) := by
  unfold capture_moves
  rw [capture_go_eq brd rows cols hwf hbin h2r h2c (region_cells sr tr sc tc) []]
  · simp
  · intro p hp
    obtain ⟨r, c⟩ := p
    have := (mem_region_cells sr tr sc tc r c).mp hp
    constructor
    · show r < rows
      omega
    · show c < cols
      omega

/-- The concatenation of all per-region move lists, in region order. -/
def all_moves (brd : Board) (rows cols : Nat) :
    List (Nat × Nat × Nat × Nat) → List (Nat × Nat × Nat)
  | [] => []
  | (sr, tr, sc, tc) :: rest =>
    (region_cells sr tr sc tc).filterMap (moveOf brd rows cols) ++
      all_moves brd rows cols rest

/-- On a well-formed binary board, capturing over in-bounds regions
succeeds and returns the concatenated per-region move lists. -/
theorem capture_all_eq (brd : Board) (rows cols : Nat) (hwf : WF brd rows cols)
    (hbin : Binary brd) (h2r : 2 ≤ rows) (h2c : 2 ≤ cols) :
    ∀ (regions : List (Nat × Nat × Nat × Nat)),
    (∀ R ∈ regions, R.2.1 ≤ rows ∧ R.2.2.2 ≤ cols) →
    capture_all brd rows cols regions = some (all_moves brd rows cols regions)
  | [], _ => rfl
  | (sr, tr, sc, tc) :: rest, h => by
    have hR := h (sr, tr, sc, tc) (by simp)
    simp only [capture_all,
      capture_moves_eq brd rows cols sr tr sc tc hwf hbin h2r h2c hR.1 hR.2,
      capture_all_eq brd rows cols hwf hbin h2r h2c rest (fun R hmem => h R (by simp [hmem])),
      all_moves]

/-! ## Applying moves -/

/-- Writing a cell preserves well-formedness. -/
theorem set_cell_WF (brd : Board) (rows cols r c v : Nat) (hwf : WF brd rows cols) :
    WF (set_cell brd r c v) rows cols := by
  obtain ⟨hlen, hrow⟩ := hwf
  by_cases hr : r < brd.length
  · constructor
    · rw [set_cell, List.length_set, hlen]
    · intro row hmem
      cases List.mem_or_eq_of_mem_set hmem with
      | inl h => exact hrow _ h
      | inr h =>
        subst h
        rw [List.length_set]
        have : brd.getD r [] = brd[r] := by
          rw [List.getD_eq_getElem?_getD, List.getElem?_eq_getElem hr]
          rfl
        rw [this]
        exact hrow _ (List.getElem_mem hr)
  · rw [set_cell, List.set_eq_of_length_le (by omega)]
    exact ⟨hlen, hrow⟩

/-- Reading back the cell just written (in bounds). -/
theorem board_get_set_same (brd : Board) (rows cols r c v : Nat) (hwf : WF brd rows cols)
    (hr : r < rows) (hc : c < cols) :
    board_get (set_cell brd r c v) (r : Int) (c : Int) = some v := by
  obtain ⟨hlen, hrow⟩ := hwf
  have hrl : r < brd.length := by omega
  have hrowlen : (brd.getD r []).length = cols := by
    rw [List.getD_eq_getElem?_getD, List.getElem?_eq_getElem hrl]
    exact hrow _ (List.getElem_mem hrl)
  unfold board_get set_cell
  rw [if_neg (by omega)]
  have h1 : ((r : Int)).toNat = r := Int.toNat_natCast r
  have h2 : ((c : Int)).toNat = c := Int.toNat_natCast c
  rw [h1, h2]
  rw [List.getElem?_set_self (by rw [hlen]; omega)]
  show ((brd.getD r []).set c v)[c]? = some v
  rw [List.getElem?_set_self (by rw [hrowlen]; omega)]

/-- Reading any other cell after a write is unchanged. -/
theorem board_get_set_other (brd : Board) (r0 c0 v r c : Nat)
    (h : ¬(r0 = r ∧ c0 = c)) :
    board_get (set_cell brd r0 c0 v) (r : Int) (c : Int) = board_get brd (r : Int) (c : Int) := by
  unfold board_get set_cell
  rw [if_neg (by omega), if_neg (by omega)]
  have h1 : ((r : Int)).toNat = r := Int.toNat_natCast r
  have h2 : ((c : Int)).toNat = c := Int.toNat_natCast c
  rw [h1, h2]
  by_cases hrr : r0 = r
  · subst hrr
    have hcc : c0 ≠ c := by omega
    by_cases hlt : r0 < brd.length
    · rw [List.getElem?_set_self hlt, List.getElem?_eq_getElem hlt]
      show ((brd.getD r0 []).set c0 v)[c]? = (brd[r0])[c]?
      have : brd.getD r0 [] = brd[r0] := by
        rw [List.getD_eq_getElem?_getD, List.getElem?_eq_getElem hlt]
        rfl
      rw [this, List.getElem?_set_ne hcc]
    · rw [List.set_eq_of_length_le (by omega)]
  · rw [List.getElem?_set_ne hrr]

/-- Applying moves that all avoid `(r, c)` leaves the cell unchanged. -/
theorem apply_moves_nomatch :
    ∀ (ms : List (Nat × Nat × Nat)) (brd : Board) (r c : Nat),
    (∀ m ∈ ms, ¬(m.1 = r ∧ m.2.1 = c)) →
    board_get (apply_moves brd ms) (r : Int) (c : Int) = board_get brd (r : Int) (c : Int)
  | [], brd, r, c, _ => rfl
  | m :: rest, brd, r, c, h => by
    show board_get (apply_moves (set_cell brd m.1 m.2.1 m.2.2) rest) _ _ = _
    rw [apply_moves_nomatch rest (set_cell brd m.1 m.2.1 m.2.2) r c
      (fun m2 hm2 => h m2 (by simp [hm2]))]
    exact board_get_set_other brd m.1 m.2.1 m.2.2 r c (h m (by simp))

/-- Applying moves preserves well-formedness. -/
theorem apply_moves_WF :
    ∀ (ms : List (Nat × Nat × Nat)) (brd : Board) (rows cols : Nat),
    WF brd rows cols → WF (apply_moves brd ms) rows cols
  | [], _, _, _, hwf => hwf
  | m :: rest, brd, rows, cols, hwf =>
    apply_moves_WF rest (set_cell brd m.1 m.2.1 m.2.2) rows cols
      (set_cell_WF brd rows cols m.1 m.2.1 m.2.2 hwf)

/-- If exactly one move in the list targets `(r, c)`, the final value of
the cell is that move's value. -/
theorem apply_moves_single (rows cols : Nat) :
    ∀ (ms : List (Nat × Nat × Nat)) (brd : Board) (r c w : Nat),
    WF brd rows cols → r < rows → c < cols →
    ms.filter (fun m => decide (m.1 = r) && decide (m.2.1 = c)) = [(r, c, w)] →
    board_get (apply_moves brd ms) (r : Int) (c : Int) = some w
  | [], brd, r, c, w, _, _, _, hf => by simp at hf
  | m :: rest, brd, r, c, w, hwf, hr, hc, hf => by
    rw [List.filter_cons] at hf
    by_cases hm : m.1 = r ∧ m.2.1 = c
    · rw [if_pos (by simp [hm.1, hm.2])] at hf
      have hmw : m = (r, c, w) ∧
          rest.filter (fun m => decide (m.1 = r) && decide (m.2.1 = c)) = [] := by
        have := List.cons.injEq m _ (r, c, w) [] ▸ hf
        exact ⟨this.1, this.2⟩
      have hnone : ∀ m2 ∈ rest, ¬(m2.1 = r ∧ m2.2.1 = c) := by
        intro m2 hm2 hcon
        have := List.filter_eq_nil_iff.mp hmw.2 m2 hm2
        simp [hcon.1, hcon.2] at this
      show board_get (apply_moves (set_cell brd m.1 m.2.1 m.2.2) rest) _ _ = _
      rw [apply_moves_nomatch rest (set_cell brd m.1 m.2.1 m.2.2) r c hnone]
      rw [hmw.1]
      exact board_get_set_same brd rows cols r c w hwf hr hc
    · rw [if_neg (by simp; omega)] at hf
      show board_get (apply_moves (set_cell brd m.1 m.2.1 m.2.2) rest) _ _ = _
      exact apply_moves_single rows cols rest (set_cell brd m.1 m.2.1 m.2.2) r c w
        (set_cell_WF brd rows cols m.1 m.2.1 m.2.2 hwf) hr hc hf

/-- If no move in the list targets `(r, c)`, the cell keeps its value. -/
theorem apply_moves_empty (ms : List (Nat × Nat × Nat)) (brd : Board) (r c : Nat)
    (hf : ms.filter (fun m => decide (m.1 = r) && decide (m.2.1 = c)) = []) :
    board_get (apply_moves brd ms) (r : Int) (c : Int) = board_get brd (r : Int) (c : Int) := by
  apply apply_moves_nomatch
  intro m hm hcon
  have := List.filter_eq_nil_iff.mp hf m hm
  simp [hcon.1, hcon.2] at this

/-- A move emitted for cell `p` carries `p`'s coordinates. -/
theorem moveOf_shape (brd : Board) (rows cols : Nat) (p : Nat × Nat) (m : Nat × Nat × Nat)
    (h : moveOf brd rows cols p = some m) : ∃ w, m = (p.1, p.2, w) := by
  simp only [moveOf, Option.map_eq_some'] at h
  obtain ⟨w, _, hw2⟩ := h
  exact ⟨w, hw2.symm⟩

/-- A region that does not contain `(r, c)` contributes no move for it. -/
theorem filterMap_moveOf_filter_nil (brd : Board) (rows cols r c : Nat) :
    ∀ cells : List (Nat × Nat), (r, c) ∉ cells →
    ((cells.filterMap (moveOf brd rows cols)).filter
      (fun m => decide (m.1 = r) && decide (m.2.1 = c))) = []
  | [], _ => rfl
  | p :: rest, h => by
    have hne : p ≠ (r, c) := fun e => h (by simp [e])
    have IH := filterMap_moveOf_filter_nil brd rows cols r c rest
      (fun e => h (by simp [e]))
    cases hm : moveOf brd rows cols p with
    | none =>
      rw [List.filterMap_cons]
      simp only [hm]
      exact IH
    | some m =>
      obtain ⟨w, rfl⟩ := moveOf_shape brd rows cols p m hm
      rw [List.filterMap_cons]
      simp only [hm]
      rw [List.filter_cons, if_neg]
      · exact IH
      · simp only [Bool.and_eq_true, decide_eq_true_eq]
        intro hcon
        exact hne (Prod.ext hcon.1 hcon.2)

/-- A region whose cell list holds `(r, c)` exactly once contributes
exactly the per-cell move of `(r, c)` (when one is emitted). -/
theorem filterMap_moveOf_filter_one (brd : Board) (rows cols r c : Nat) :
    ∀ cells : List (Nat × Nat), cells.count (r, c) = 1 →
    ((cells.filterMap (moveOf brd rows cols)).filter
      (fun m => decide (m.1 = r) && decide (m.2.1 = c))) =
      (moveOf brd rows cols (r, c)).toList
  | [], h => by simp at h
  | p :: rest, h => by
    by_cases hp : p = (r, c)
    · subst hp
      have hrest : (r, c) ∉ rest := by
        rw [List.count_cons] at h
        simp only [beq_self_eq_true, if_true] at h
        exact List.count_eq_zero.mp (by omega)
      cases hm : moveOf brd rows cols (r, c) with
      | none =>
        rw [List.filterMap_cons]
        simp only [hm]
        rw [filterMap_moveOf_filter_nil brd rows cols r c rest hrest]
        rfl
      | some m =>
        obtain ⟨w, rfl⟩ := moveOf_shape brd rows cols (r, c) m hm
        rw [List.filterMap_cons]
        simp only [hm]
        rw [List.filter_cons, if_pos (by simp)]
        rw [filterMap_moveOf_filter_nil brd rows cols r c rest hrest]
        rfl
    · have hcnt : rest.count (r, c) = 1 := by
        rw [List.count_cons, if_neg (by simp [hp])] at h
        omega
      have IH := filterMap_moveOf_filter_one brd rows cols r c rest hcnt
      cases hm : moveOf brd rows cols p with
      | none =>
        rw [List.filterMap_cons]
        simp only [hm]
        exact IH
      | some m =>
        obtain ⟨w, rfl⟩ := moveOf_shape brd rows cols p m hm
        rw [List.filterMap_cons]
        simp only [hm]
        rw [List.filter_cons, if_neg]
        · exact IH
        · simp only [Bool.and_eq_true, decide_eq_true_eq]
          intro hcon
          exact hp (Prod.ext hcon.1 hcon.2)

/-- If no region contains `(r, c)`, the aggregated move list holds no
move for it. -/
theorem all_moves_filter_nil (brd : Board) (rows cols r c : Nat) :
    ∀ regions : List (Nat × Nat × Nat × Nat),
    regions.countP (fun R => containsB R r c) = 0 →
    ((all_moves brd rows cols regions).filter
      (fun m => decide (m.1 = r) && decide (m.2.1 = c))) = []
  | [], _ => rfl
  | (sr, tr, sc, tc) :: rest, h => by
    rw [List.countP_cons] at h
    have h1 : ¬(containsB (sr, tr, sc, tc) r c = true) := by
      intro hcon
      rw [if_pos hcon] at h
      omega
    have h2 : rest.countP (fun R => containsB R r c) = 0 := by
      rw [if_neg h1] at h
      omega
    have hnotmem : (r, c) ∉ region_cells sr tr sc tc := by
      intro hmem
      have := (mem_region_cells sr tr sc tc r c).mp hmem
      simp only [containsB, Bool.and_eq_true, decide_eq_true_eq] at h1
      omega
    simp only [all_moves]
    rw [List.filter_append,
      filterMap_moveOf_filter_nil brd rows cols r c _ hnotmem,
      all_moves_filter_nil brd rows cols r c rest h2]
    rfl

/-- If exactly one region contains `(r, c)`, the aggregated move list
holds exactly the per-cell move of `(r, c)` (when one is emitted). -/
theorem all_moves_filter_one (brd : Board) (rows cols r c : Nat) :
    ∀ regions : List (Nat × Nat × Nat × Nat),
    regions.countP (fun R => containsB R r c) = 1 →
    ((all_moves brd rows cols regions).filter
      (fun m => decide (m.1 = r) && decide (m.2.1 = c))) =
      (moveOf brd rows cols (r, c)).toList
  | [], h => by simp at h
  | (sr, tr, sc, tc) :: rest, h => by
    rw [List.countP_cons] at h
    by_cases hc0 : containsB (sr, tr, sc, tc) r c = true
    · have h2 : rest.countP (fun R => containsB R r c) = 0 := by
        rw [if_pos hc0] at h
        omega
      have hcnt : (region_cells sr tr sc tc).count (r, c) = 1 := by
        rw [count_region_cells]
        simp only [containsB, Bool.and_eq_true, decide_eq_true_eq] at hc0
        rw [if_pos (by omega)]
      simp only [all_moves]
      rw [List.filter_append,
        filterMap_moveOf_filter_one brd rows cols r c _ hcnt,
        all_moves_filter_nil brd rows cols r c rest h2,
        List.append_nil]
    · have h2 : rest.countP (fun R => containsB R r c) = 1 := by
        rw [if_neg hc0] at h
        omega
      have hnotmem : (r, c) ∉ region_cells sr tr sc tc := by
        intro hmem
        have := (mem_region_cells sr tr sc tc r c).mp hmem
        simp only [containsB, Bool.and_eq_true, decide_eq_true_eq] at hc0
        omega
      simp only [all_moves]
      rw [List.filter_append,
        filterMap_moveOf_filter_nil brd rows cols r c _ hnotmem,
        all_moves_filter_one brd rows cols r c rest h2,
        List.nil_append]

/-! ## Pipeline refinement -/

/-- In-bounds lookup with natural coordinates. -/
theorem board_get_nat (brd : Board) (r c : Nat) (h1 : r < brd.length)
    (h2 : c < (brd[r]).length) :
    board_get brd (r : Int) (c : Int) = some ((brd[r])[c]) := by
  unfold board_get
  rw [if_neg (by omega)]
  rw [Int.toNat_natCast r, Int.toNat_natCast c]
  rw [List.getElem?_eq_getElem h1]
  show (brd[r])[c]? = some _
  rw [List.getElem?_eq_getElem h2]

/-- Two well-formed boards of the same dimensions that read equal at
every in-bounds cell are equal. -/
theorem board_ext (b1 b2 : Board) (rows cols : Nat) (h1 : WF b1 rows cols)
    (h2 : WF b2 rows cols)
    (h : ∀ r, r < rows → ∀ c, c < cols →
      board_get b1 (r : Int) (c : Int) = board_get b2 (r : Int) (c : Int)) :
    b1 = b2 := by
  have hlen : b1.length = b2.length := by rw [h1.1, h2.1]
  apply List.ext_getElem hlen
  intro i hi1 hi2
  have hr1 : (b1[i]).length = cols := h1.2 _ (List.getElem_mem hi1)
  have hr2 : (b2[i]).length = cols := h2.2 _ (List.getElem_mem hi2)
  apply List.ext_getElem (by rw [hr1, hr2])
  intro j hj1 hj2
  have hh := h i (by rw [h1.1] at hi1; omega) j (by rw [hr1] at hj1; omega)
  rw [board_get_nat b1 i j hi1 hj1, board_get_nat b2 i j hi2 hj2] at hh
  exact Option.some.inj hh

/-- The spec step board is well formed. -/
theorem spec_step_WF (brd : Board) (rows cols : Nat) :
    WF (spec_step brd rows cols) rows cols := by
  constructor
  · simp [spec_step]
  · intro row hmem
    simp only [spec_step, List.mem_map, List.mem_range] at hmem
    obtain ⟨r, _, rfl⟩ := hmem
    simp

/-- The spec step board is binary. -/
theorem spec_step_binary (brd : Board) (rows cols : Nat) :
    Binary (spec_step brd rows cols) := by
  intro row hmem v hv
  simp only [spec_step, List.mem_map, List.mem_range] at hmem
  obtain ⟨r, _, rfl⟩ := hmem
  simp only [List.mem_map, List.mem_range] at hv
  obtain ⟨c, _, rfl⟩ := hv
  split_ifs <;> omega

/-- Reading a doubly range-mapped board evaluates the generating
function. -/
theorem board_get_map_range (rows cols : Nat) (f : Nat → Nat → Nat) (r c : Nat)
    (hr : r < rows) (hc : c < cols) :
    board_get ((List.range rows).map (fun r0 => (List.range cols).map (fun c0 => f r0 c0)))
      (r : Int) (c : Int) = some (f r c) := by
  unfold board_get
  rw [if_neg (by omega), Int.toNat_natCast r, Int.toNat_natCast c]
  rw [List.getElem?_map, List.getElem?_range hr]
  show ((List.range cols).map (fun c0 => f r c0))[c]? = some (f r c)
  rw [List.getElem?_map, List.getElem?_range hc]
  rfl

/-- The value of the spec step board at an in-bounds cell. -/
theorem spec_step_get (brd : Board) (rows cols r c : Nat) (hr : r < rows) (hc : c < cols) :
    board_get (spec_step brd rows cols) (r : Int) (c : Int) =
      some (if cellI brd (r : Int) (c : Int) = 1 then
        if spec_neighbor_sum brd (r : Int) (c : Int) = 2 ∨
           spec_neighbor_sum brd (r : Int) (c : Int) = 3 then 1 else 0
      else if spec_neighbor_sum brd (r : Int) (c : Int) = 3 then 1 else 0) :=
  board_get_map_range rows cols
    (fun r0 c0 =>
      if cellI brd (r0 : Int) (c0 : Int) = 1 then
        if spec_neighbor_sum brd (r0 : Int) (c0 : Int) = 2 ∨
           spec_neighbor_sum brd (r0 : Int) (c0 : Int) = 3 then 1 else 0
      else if spec_neighbor_sum brd (r0 : Int) (c0 : Int) = 3 then 1 else 0)
    r c hr hc

/-- One generation of the partitioned pipeline, over any exact partition
of a well-formed binary board, equals the spec-level sequential step. -/
theorem pipeline_step_spec (brd : Board) (rows cols : Nat)
    (regions : List (Nat × Nat × Nat × Nat)) (hwf : WF brd rows cols) (hbin : Binary brd)
    (h2r : 2 ≤ rows) (h2c : 2 ≤ cols) (hex : ExactPartition regions rows cols) :
    pipeline_step brd rows cols regions = some (spec_step brd rows cols) := by
  unfold pipeline_step
  rw [capture_all_eq brd rows cols hwf hbin h2r h2c regions hex.1]
  show some (apply_moves brd (all_moves brd rows cols regions)) =
    some (spec_step brd rows cols)
  apply congrArg
  apply board_ext _ _ rows cols (apply_moves_WF _ brd rows cols hwf)
    (spec_step_WF brd rows cols)
  intro r hr c hc
  have hone := hex.2 r hr c hc
  have hfilter := all_moves_filter_one brd rows cols r c regions hone
  have hv := board_get_some brd rows cols (r : Int) (c : Int) hwf (by omega)
  have hn := count_neighbors_bridge brd rows cols r c hwf hbin h2r h2c hr hc
  have hmv : moveOf brd rows cols (r, c) =
      (move_at (cellI brd (r : Int) (c : Int))
        (spec_neighbor_sum brd (r : Int) (c : Int))).map (fun w => (r, c, w)) := by
    simp [moveOf, hn, hv]
  rw [spec_step_get brd rows cols r c hr hc]
  by_cases c1 : cellI brd (r : Int) (c : Int) = 1 ∧
      (spec_neighbor_sum brd (r : Int) (c : Int) < 2 ∨
       spec_neighbor_sum brd (r : Int) (c : Int) > 3)
  · have hfilter0 : ((all_moves brd rows cols regions).filter
        (fun m => decide (m.1 = r) && decide (m.2.1 = c))) = [(r, c, 0)] := by
      rw [hfilter, hmv]
      simp [move_at, c1]
    rw [apply_moves_single rows cols _ brd r c 0 hwf hr hc hfilter0]
    congr 1
    rw [if_pos c1.1, if_neg (by omega)]
  · by_cases c2 : spec_neighbor_sum brd (r : Int) (c : Int) = 3
    · have hfilter0 : ((all_moves brd rows cols regions).filter
          (fun m => decide (m.1 = r) && decide (m.2.1 = c))) = [(r, c, 1)] := by
        rw [hfilter, hmv]
        simp [move_at, c1, c2]
      rw [apply_moves_single rows cols _ brd r c 1 hwf hr hc hfilter0]
      congr 1
      by_cases c3 : cellI brd (r : Int) (c : Int) = 1
      · rw [if_pos c3, if_pos (by omega)]
      · rw [if_neg c3, if_pos c2]
    · have hfilter0 : ((all_moves brd rows cols regions).filter
          (fun m => decide (m.1 = r) && decide (m.2.1 = c))) = [] := by
        rw [hfilter, hmv]
        simp [move_at, c1, c2]
      rw [apply_moves_empty _ brd r c hfilter0, hv]
      congr 1
      have hvle := cellI_le_one brd (r : Int) (c : Int) hbin
      by_cases c3 : cellI brd (r : Int) (c : Int) = 1
      · rw [if_pos c3, if_pos (by omega)]
        omega
      · rw [if_neg c3, if_neg c2]
        omega

/-- Any number of generations of the partitioned pipeline, each over any
exact partition, equals the spec-level sequential iteration. -/
theorem pipeline_iter_spec (rows cols : Nat) (h2r : 2 ≤ rows) (h2c : 2 ≤ cols)
    (P : Nat → List (Nat × Nat × Nat × Nat))
    (hP : ∀ t, ExactPartition (P t) rows cols) :
    ∀ (N : Nat) (brd : Board), WF brd rows cols → Binary brd →
    pipeline_iter P rows cols N brd = some (spec_iter rows cols N brd)
  | 0, _, _, _ => rfl
  | N + 1, brd, hwf, hbin => by
    simp only [pipeline_iter, spec_iter,
      pipeline_step_spec brd rows cols (P N) hwf hbin h2r h2c (hP N)]
    exact pipeline_iter_spec rows cols h2r h2c P hP N (spec_step brd rows cols)
      (spec_step_WF brd rows cols) (spec_step_binary brd rows cols)

/-! ## Claims -/

/-- Claim C1, counterexample: the scanner does emit a change for a cell
whose value does not change.  On a 4×4 board holding a 2×2 still-life
block, scanning the block's region returns one redundant `(r, c, 1)`
change per live cell — each is alive with neighbor sum 3 — not the empty
list; the `count == 3` branch of `capture_moves` does not test that the
cell is dead. -/
theorem claim_C1_counterexample :
    capture_moves [[0, 0, 0, 0], [0, 1, 1, 0], [0, 1, 1, 0], [0, 0, 0, 0]] 4 4 1 3 1 3 =
      some [(1, 1, 1), (1, 2, 1), (2, 1, 1), (2, 2, 1)] ∧
    capture_moves [[0, 0, 0, 0], [0, 1, 1, 0], [0, 1, 1, 0], [0, 0, 0, 0]] 4 4 1 3 1 3 ≠
      some [] := by
  constructor
  · rfl
  · decide

/-- Claim C1 (corrected): on a well-formed binary board, the scanner
emits no change for an alive cell with neighbor sum 2 and none for a dead
cell with neighbor sum ≠ 3, but an alive cell with neighbor sum exactly 3
does get a redundant change to 1 emitted even though its value does not
change (so a region covering a 2×2 block still life returns one change
per block cell, not the empty list). -/
theorem claim_C1 (brd : Board) (rows cols sr tr sc tc r c : Nat)
    (hwf : WF brd rows cols) (hbin : Binary brd) (h2r : 2 ≤ rows) (h2c : 2 ≤ cols)
    (htr : tr ≤ rows) (htc : tc ≤ cols)
    (hin : sr ≤ r ∧ r < tr ∧ sc ≤ c ∧ c < tc) :
    ∃ ms, capture_moves brd rows cols sr tr sc tc = some ms ∧
      (cellI brd (r : Int) (c : Int) = 1 ∧ spec_neighbor_sum brd (r : Int) (c : Int) = 2 →
        ∀ w, (r, c, w) ∉ ms) ∧
      (cellI brd (r : Int) (c : Int) = 0 ∧ spec_neighbor_sum brd (r : Int) (c : Int) ≠ 3 →
        ∀ w, (r, c, w) ∉ ms) ∧
      (cellI brd (r : Int) (c : Int) = 1 ∧ spec_neighbor_sum brd (r : Int) (c : Int) = 3 →
        (r, c, 1) ∈ ms) := by
  have hr : r < rows := by omega
  have hc : c < cols := by omega
  have hv := board_get_some brd rows cols (r : Int) (c : Int) hwf (by omega)
  have hn := count_neighbors_bridge brd rows cols r c hwf hbin h2r h2c hr hc
  have hmv : moveOf brd rows cols (r, c) =
      (move_at (cellI brd (r : Int) (c : Int))
        (spec_neighbor_sum brd (r : Int) (c : Int))).map (fun w => (r, c, w)) := by
    simp [moveOf, hn, hv]
  refine ⟨(region_cells sr tr sc tc).filterMap (moveOf brd rows cols),
    capture_moves_eq brd rows cols sr tr sc tc hwf hbin h2r h2c htr htc, ?_, ?_, ?_⟩
  · rintro ⟨hc1, hc2⟩ w hmem
    obtain ⟨p, _, hp⟩ := List.mem_filterMap.mp hmem
    obtain ⟨w2, hw2⟩ := moveOf_shape brd rows cols p _ hp
    have hpc : p = (r, c) := by
      obtain ⟨p1, p2⟩ := p
      simp only [Prod.mk.injEq] at hw2
      exact Prod.ext hw2.1.symm hw2.2.1.symm
    rw [hpc, hmv, hc1, hc2] at hp
    simp [move_at] at hp
  · rintro ⟨hc1, hc2⟩ w hmem
    obtain ⟨p, _, hp⟩ := List.mem_filterMap.mp hmem
    obtain ⟨w2, hw2⟩ := moveOf_shape brd rows cols p _ hp
    have hpc : p = (r, c) := by
      obtain ⟨p1, p2⟩ := p
      simp only [Prod.mk.injEq] at hw2
      exact Prod.ext hw2.1.symm hw2.2.1.symm
    rw [hpc, hmv, hc1] at hp
    simp [move_at, hc2] at hp
  · rintro ⟨hc1, hc2⟩
    apply List.mem_filterMap.mpr
    refine ⟨(r, c), (mem_region_cells sr tr sc tc r c).mpr hin, ?_⟩
    rw [hmv, hc1, hc2]
    simp [move_at]

/-- Claim C1, witness: the amended claim instantiated on the 2×2 block
board — the live cell `(1, 1)` has neighbor sum 3 and receives a
redundant change to 1. -/
theorem claim_C1_witness :
    ∃ ms, capture_moves [[0, 0, 0, 0], [0, 1, 1, 0], [0, 1, 1, 0], [0, 0, 0, 0]]
      4 4 1 3 1 3 = some ms ∧ (1, 1, 1) ∈ ms := by
  obtain ⟨ms, h1, _, _, h3⟩ :=
    claim_C1 [[0, 0, 0, 0], [0, 1, 1, 0], [0, 1, 1, 0], [0, 0, 0, 0]]
      4 4 1 3 1 3 1 1 (by decide) (by decide) (by omega) (by decide)
      (by omega) (by decide) (by omega)
  exact ⟨ms, h1, h3 (by decide)⟩

/-- Claim C2 (confirmed): for every well-formed binary board with at
least 2 rows and columns and every generation count, the partitioned
pipeline — scan every region of any exact partition against the
generation-`t` board, then apply every emitted change — produces exactly
the spec-level sequential B3/S23 iteration, for any choice of exact
partition at each generation; in particular for the program's own
`get_subgrids` partition. -/
theorem claim_C2 (rows cols : Nat) (brd : Board) (N : Nat)
    (P : Nat → List (Nat × Nat × Nat × Nat))
    (h2r : 2 ≤ rows) (h2c : 2 ≤ cols) (hwf : WF brd rows cols) (hbin : Binary brd)
    (hP : ∀ t, ExactPartition (P t) rows cols) :
    pipeline_iter P rows cols N brd = some (spec_iter rows cols N brd) ∧
    pipeline_iter (fun _ => get_subgrids rows cols) rows cols N brd =
      some (spec_iter rows cols N brd) :=
  ⟨pipeline_iter_spec rows cols h2r h2c P hP N brd hwf hbin,
   pipeline_iter_spec rows cols h2r h2c (fun _ => get_subgrids rows cols)
     (fun _ => get_subgrids_exact rows cols) N brd hwf hbin⟩

/-- Claim C2, witness: two generations of the L-shaped board through the
program's 3×3 partition equal the sequential spec iteration. -/
theorem claim_C2_witness :
    pipeline_iter (fun _ => get_subgrids 3 3) 3 3 2 [[0, 1, 0], [1, 1, 1], [1, 0, 0]] =
      some (spec_iter 3 3 2 [[0, 1, 0], [1, 1, 1], [1, 0, 0]]) :=
  (claim_C2 3 3 [[0, 1, 0], [1, 1, 1], [1, 0, 0]] 2 (fun _ => get_subgrids 3 3)
    (by omega) (by omega) (by decide) (by decide) (fun _ => get_subgrids_exact 3 3)).2

/-- Claim C3 (confirmed): for every grid of at least 3×3, the rectangles
returned by `get_subgrids` partition the grid exactly — every in-bounds
cell lies in exactly one half-open rectangle, no gaps, no overlaps — and
`get_subgrids 15 7` is exactly the nine regions with row spans
`[0,5), [5,10), [10,15)` and column spans `[0,3), [3,5), [5,7)`. -/
theorem claim_C3 :
    (∀ rows cols : Nat, 3 ≤ rows → 3 ≤ cols → ∀ r, r < rows → ∀ c, c < cols →
      (get_subgrids rows cols).countP (fun R => containsB R r c) = 1) ∧
    get_subgrids 15 7 = [(0, 5, 0, 3), (0, 5, 3, 5), (0, 5, 5, 7), (5, 10, 0, 3),
      (5, 10, 3, 5), (5, 10, 5, 7), (10, 15, 0, 3), (10, 15, 3, 5), (10, 15, 5, 7)] :=
  ⟨fun rows cols _ _ r hr c hc => (get_subgrids_exact rows cols).2 r hr c hc, by rfl⟩

/-- Claim C3, witness: cell `(8, 4)` of a 15×7 grid lies in exactly one
of the returned regions. -/
theorem claim_C3_witness :
    (get_subgrids 15 7).countP (fun R => containsB R 8 4) = 1 :=
  claim_C3.1 15 7 (by omega) (by omega) 8 (by omega) 4 (by omega)

/-- Claim C4 (confirmed): for `num ≥ num_groups ≥ 1`, `get_groups`
returns exactly `num_groups` sizes — the first `num % num_groups` are
`num / num_groups + 1` and the rest are `num / num_groups` — and the
three documented examples hold. -/
theorem claim_C4 (num g : Nat) (hg : 1 ≤ g) (_hgn : g ≤ num) :
    (get_groups num g).length = g ∧
    get_groups num g =
      List.replicate (num % g) (num / g + 1) ++ List.replicate (g - num % g) (num / g) ∧
    get_groups 11 2 = [6, 5] ∧ get_groups 42 1 = [42] ∧
    get_groups 20 6 = [4, 4, 3, 3, 3, 3] :=
  ⟨get_groups_length num g hg, get_groups_eq num g hg, by rfl, by rfl, by rfl⟩

/-- Claim C4, witness: the balanced split of 11 into 2 groups. -/
theorem claim_C4_witness :
    get_groups 11 2 =
      List.replicate (11 % 2) (11 / 2 + 1) ++ List.replicate (2 - 11 % 2) (11 / 2) :=
  (claim_C4 11 2 (by omega) (by omega)).2.1

/-- Claim C5 (confirmed): on the weighted 3×3 board
`[[0,1,2],[3,4,5],[6,7,8]]`, `count_neighbors` returns exactly the sum of
the in-bounds neighbors at all nine positions — 8 at the corner `(0,0)`,
14 at the edge `(0,1)`, 32 at the interior `(1,1)`, and likewise for the
other six — with out-of-bounds positions contributing nothing. -/
theorem claim_C5 :
    count_neighbors [[0, 1, 2], [3, 4, 5], [6, 7, 8]] 3 3 0 0 = some 8 ∧
    count_neighbors [[0, 1, 2], [3, 4, 5], [6, 7, 8]] 3 3 0 1 = some 14 ∧
    count_neighbors [[0, 1, 2], [3, 4, 5], [6, 7, 8]] 3 3 0 2 = some 10 ∧
    count_neighbors [[0, 1, 2], [3, 4, 5], [6, 7, 8]] 3 3 1 0 = some 18 ∧
    count_neighbors [[0, 1, 2], [3, 4, 5], [6, 7, 8]] 3 3 1 1 = some 32 ∧
    count_neighbors [[0, 1, 2], [3, 4, 5], [6, 7, 8]] 3 3 1 2 = some 22 ∧
    count_neighbors [[0, 1, 2], [3, 4, 5], [6, 7, 8]] 3 3 2 0 = some 14 ∧
    count_neighbors [[0, 1, 2], [3, 4, 5], [6, 7, 8]] 3 3 2 1 = some 26 ∧
    count_neighbors [[0, 1, 2], [3, 4, 5], [6, 7, 8]] 3 3 2 2 = some 16 := by
  decide

/-- Claim C6, counterexample: with `rows = 2` below the fixed 3 row
groups, `get_groups` and `get_subgrids` silently return — `get_groups 2 3`
yields a zero-size third group and `get_subgrids 2 2` yields a full
9-region set containing empty regions — rather than failing before any
generation runs. -/
theorem claim_C6_counterexample :
    get_groups 2 3 = [1, 1, 0] ∧
    get_subgrids 2 2 = [(0, 1, 0, 1), (0, 1, 1, 2), (0, 1, 2, 2), (1, 2, 0, 1),
      (1, 2, 1, 2), (1, 2, 2, 2), (2, 2, 0, 1), (2, 2, 1, 2), (2, 2, 2, 2)] := by
  constructor
  · rfl
  · rfl

/-- Claim C6 (corrected): `get_groups` and `get_subgrids` perform no
validation and never fail: for every `num` and `num_groups ≥ 1` —
including `num < num_groups` and `num = 0` — `get_groups` silently
returns exactly `num_groups` sizes summing to `num` (padding with
zero-size groups), and `get_subgrids` silently returns a region set that
still covers the grid exactly (with empty regions); no configuration
error is reported. -/
theorem claim_C6 (num g : Nat) (hg : 1 ≤ g) :
    (get_groups num g).length = g ∧ (get_groups num g).sum = num ∧
    (∀ rows cols : Nat, ExactPartition (get_subgrids rows cols) rows cols) :=
  ⟨get_groups_length num g hg, get_groups_sum num g hg,
   fun rows cols => get_subgrids_exact rows cols⟩

/-- Claim C6, witness: `get_groups 2 3` silently returns three sizes
summing to 2. -/
theorem claim_C6_witness :
    (get_groups 2 3).length = 3 ∧ (get_groups 2 3).sum = 2 :=
  ⟨(claim_C6 2 3 (by omega)).1, (claim_C6 2 3 (by omega)).2.1⟩

/-- Claim C7, counterexample: `count_neighbors` does not special-case
degenerate grids.  On a 3×1 column grid, the cell `(1, 0)` takes the
right-column branch, whose `c - 1` coordinate underflows below zero, so
the neighbor lookup fails instead of returning a sum. -/
theorem claim_C7_counterexample :
    count_neighbors [[0], [0], [0]] 3 1 1 0 = none := by
  decide

/-- Claim C7 (corrected): `count_neighbors` applies the `rows ≥ 2`,
`cols ≥ 2` dispatch unconditionally, with no special case for `rows < 2`
or `cols < 2`: on any well-formed single-column grid, every cell strictly
between the first and last rows takes the right-column branch, whose
`c - 1` coordinate underflows (out of bounds), and evaluation fails. -/
theorem claim_C7 (brd : Board) (rows r : Nat) (hwf : WF brd rows 1)
    (hr0 : 0 < r) (hr1 : r + 1 < rows) :
    count_neighbors brd rows 1 r 0 = none := by
  have e1 := board_get_some brd rows 1 ((r : Int) - 1) ((0 : Nat) : Int) hwf (by omega)
  have e2 := board_get_oob brd rows 1 ((r : Int) - 1) (((0 : Nat) : Int) - 1) hwf (by omega)
  unfold count_neighbors
  split_ifs <;> try omega
  simp only [gather_board_values, gather_go, e1, e2]

/-- Claim C7, witness: the amended claim instantiated on a 4×1 grid at
row 2. -/
theorem claim_C7_witness :
    count_neighbors [[0], [0], [0], [0]] 4 1 2 0 = none :=
  claim_C7 [[0], [0], [0], [0]] 4 2 (by decide) (by omega) (by omega)

/-- Claim C8 (confirmed): on the board `[[0,1,0],[1,1,1],[1,0,0]]`, the
scanner restricted to rows `[0,2)` × cols `[0,1)` returns exactly the
changes `(0,0) → 1` and `(1,0) → 1`, and a single live cell with no live
neighbors is emitted as a change to dead. -/
theorem claim_C8 :
    capture_moves [[0, 1, 0], [1, 1, 1], [1, 0, 0]] 3 3 0 2 0 1 =
      some [(0, 0, 1), (1, 0, 1)] ∧
    capture_moves [[1, 0], [0, 0]] 2 2 0 2 0 2 = some [(0, 0, 0)] := by
  constructor
  · rfl
  · rfl

/-- Claim C9 (confirmed): on every well-formed board of at least 2×2,
other than exactly 2×2, whose only live cell is at `(0, 0)`,
`count_neighbors` at the opposite corner `(rows-1, cols-1)` returns 0 —
no wraparound and no reflection ever counts `(0, 0)` as its neighbor. -/
theorem claim_C9 (brd : Board) (rows cols : Nat) (hwf : WF brd rows cols)
    (h2r : 2 ≤ rows) (h2c : 2 ≤ cols) (hne : ¬(rows = 2 ∧ cols = 2))
    (h00 : cellI brd 0 0 = 1)
    (hrest : ∀ a b : Int, ¬(a = 0 ∧ b = 0) → cellI brd a b = 0) :
    count_neighbors brd rows cols (rows - 1) (cols - 1) = some 0 := by
  have hbin : Binary brd := by
    intro row hrow v hv
    obtain ⟨i, hi, rfl⟩ := List.mem_iff_getElem.mp hrow
    obtain ⟨j, hj, rfl⟩ := List.mem_iff_getElem.mp hv
    have hcell : cellI brd (i : Int) (j : Int) = (brd[i])[j] := by
      unfold cellI
      rw [board_get_nat brd i j hi hj]
      rfl
    by_cases hz : i = 0 ∧ j = 0
    · have hci : ((i : Int)) = 0 := by omega
      have hcj : ((j : Int)) = 0 := by omega
      rw [hci, hcj, h00] at hcell
      omega
    · rw [hrest (i : Int) (j : Int) (by omega)] at hcell
      omega
  rw [count_neighbors_bridge brd rows cols (rows - 1) (cols - 1) hwf hbin h2r h2c
    (by omega) (by omega)]
  unfold spec_neighbor_sum
  have z1 := hrest ((((rows - 1 : Nat)) : Int) - 1) ((((cols - 1 : Nat)) : Int) - 1)
    (by omega)
  have z2 := hrest ((((rows - 1 : Nat)) : Int) - 1) (((cols - 1 : Nat)) : Int) (by omega)
  have z3 := hrest ((((rows - 1 : Nat)) : Int) - 1) ((((cols - 1 : Nat)) : Int) + 1)
    (by omega)
  have z4 := hrest (((rows - 1 : Nat)) : Int) ((((cols - 1 : Nat)) : Int) - 1) (by omega)
  have z5 := hrest (((rows - 1 : Nat)) : Int) ((((cols - 1 : Nat)) : Int) + 1) (by omega)
  have z6 := hrest ((((rows - 1 : Nat)) : Int) + 1) ((((cols - 1 : Nat)) : Int) - 1)
    (by omega)
  have z7 := hrest ((((rows - 1 : Nat)) : Int) + 1) (((cols - 1 : Nat)) : Int) (by omega)
  have z8 := hrest ((((rows - 1 : Nat)) : Int) + 1) ((((cols - 1 : Nat)) : Int) + 1)
    (by omega)
  rw [z1, z2, z3, z4, z5, z6, z7, z8]

/-- Claim C9, witness: on a 3×2 grid live only at `(0, 0)`, the opposite
corner `(2, 1)` has neighbor sum 0. -/
theorem claim_C9_witness :
    count_neighbors [[1, 0], [0, 0], [0, 0]] 3 2 2 1 = some 0 := by
  have h := claim_C9 [[1, 0], [0, 0], [0, 0]] 3 2 (by decide) (by omega) (by decide)
    (by omega) (by decide) ?_
  · exact h
  · intro a b hab
    by_cases hin : 0 ≤ a ∧ a < 3 ∧ 0 ≤ b ∧ b < 2
    · have ha : a = 0 ∨ a = 1 ∨ a = 2 := by omega
      have hb : b = 0 ∨ b = 1 := by omega
      rcases ha with rfl | rfl | rfl <;> rcases hb with rfl | rfl
      · exact absurd ⟨rfl, rfl⟩ hab
      · rfl
      · rfl
      · rfl
      · rfl
      · rfl
    · exact cellI_zero [[1, 0], [0, 0], [0, 0]] 3 2 a b (by decide) (by omega)

/-- The gather loop succeeds on any list of in-bounds positions,
whatever the cell values: totality needs only the coordinates. -/
theorem gather_go_total (brd : Board) (rows cols : Nat) (hwf : WF brd rows cols) :
    ∀ (ps : List (Int × Int)) (ret : Nat),
    (∀ p ∈ ps, 0 ≤ p.1 ∧ p.1 < (rows : Int) ∧ 0 ≤ p.2 ∧ p.2 < (cols : Int)) →
    (gather_go brd ps ret).isSome = true
  | [], _, _ => rfl
  | (a, b) :: rest, ret, h => by
    have hg := board_get_some brd rows cols a b hwf (h (a, b) (by simp))
    simp only [gather_go, hg]
    exact gather_go_total brd rows cols hwf rest _ (fun p hp => h p (by simp [hp]))

/-- On any well-formed board of at least 2×2 — binary or not —
`count_neighbors` succeeds at every in-bounds cell: each branch of the
dispatch passes only in-bounds coordinates to `gather_board_values`. -/
theorem count_neighbors_total (brd : Board) (rows cols r c : Nat)
    (hwf : WF brd rows cols) (h2r : 2 ≤ rows) (h2c : 2 ≤ cols)
    (hr : r < rows) (hc : c < cols) :
    ∃ n, count_neighbors brd rows cols r c = some n := by
  have T : ∀ ps : List (Int × Int),
      (∀ p ∈ ps, 0 ≤ p.1 ∧ p.1 < (rows : Int) ∧ 0 ≤ p.2 ∧ p.2 < (cols : Int)) →
      (gather_board_values brd ps).isSome = true :=
    fun ps h => gather_go_total brd rows cols hwf ps 0 h
  rw [← Option.isSome_iff_exists]
  unfold count_neighbors
  split_ifs <;> · apply T; simp; omega

/-- Claim C10 (confirmed): on every well-formed board of at least 2×2,
`count_neighbors` at every in-bounds cell succeeds — every neighbor
coordinate it passes to `gather_board_values` is in bounds, so the
out-of-bounds branch is unreachable — and when the board is moreover
binary the returned sum equals the true neighbor sum, which is at most 8,
so the 8-bit accumulation never overflows. -/
theorem claim_C10 (brd : Board) (rows cols r c : Nat) (hwf : WF brd rows cols)
    (h2r : 2 ≤ rows) (h2c : 2 ≤ cols) (hr : r < rows) (hc : c < cols) :
    (∃ n, count_neighbors brd rows cols r c = some n) ∧
    (Binary brd →
      count_neighbors brd rows cols r c =
        some (spec_neighbor_sum brd (r : Int) (c : Int)) ∧
      spec_neighbor_sum brd (r : Int) (c : Int) ≤ 8) :=
  ⟨count_neighbors_total brd rows cols r c hwf h2r h2c hr hc,
   fun hbin =>
    ⟨count_neighbors_bridge brd rows cols r c hwf hbin h2r h2c hr hc,
     spec_sum_le_eight brd (r : Int) (c : Int) hbin⟩⟩

/-- Claim C10, witness: totality instantiated on the repository's own
non-binary weighted doctest grid, and both totality and the bound on a
fully live binary 2×2 board. -/
theorem claim_C10_witness :
    (∃ n, count_neighbors [[0, 1, 2], [3, 4, 5], [6, 7, 8]] 3 3 1 1 = some n) ∧
    (∃ n, count_neighbors [[1, 1], [1, 1]] 2 2 0 0 = some n) ∧
    count_neighbors [[1, 1], [1, 1]] 2 2 0 0 =
      some (spec_neighbor_sum [[1, 1], [1, 1]] 0 0) ∧
    spec_neighbor_sum [[1, 1], [1, 1]] 0 0 ≤ 8 := by
  have h1 := claim_C10 [[0, 1, 2], [3, 4, 5], [6, 7, 8]] 3 3 1 1 (by decide) (by omega)
    (by decide) (by omega) (by decide)
  have h2 := claim_C10 [[1, 1], [1, 1]] 2 2 0 0 (by decide) (by omega) (by decide)
    (by omega) (by decide)
  exact ⟨h1.1, h2.1, h2.2 (by decide)⟩

end GameOfLife
